import Mathlib

/-!
Shallow embedding of the redux-orm QuerySet and Session dispatch-cycle core
(`src/QuerySet.js`, `src/Session.js`), together with the collaborators they
call into (the Transaction update log, the copy-on-write apply engine and the
model-class helpers), the latter modelled from the specification where their
sources are not part of the repository snapshot.
-/

namespace ReduxOrm

/-- Plain JavaScript field values stored in entity records: numbers, strings,
booleans, and references to other entities (model instances used as values). -/
inductive Val where
  | vnum (n : Nat)
  | vstr (s : String)
  | vbool (b : Bool)
  | ventity (id : Nat)
deriving DecidableEq

/-- A raw entity record: a plain field mapping. -/
abbrev Rec := List (String × Val)

/-- An entity table: the id attribute name, the ordered id sequence and the
id-to-record mapping (the table value of the data model). -/
structure Table where
  idAttribute : String
  ids : List Nat
  recs : List (Nat × Rec)
deriving DecidableEq

/-- Embeds `Model.accessId(id)`: the raw record stored for `id` (the missing-entity
sentinel is modelled by the empty record). -/
def Table.accessId (t : Table) (i : Nat) : Rec :=
  (t.recs.lookup i).getD []

/-- Reading the identity value out of a raw record (`obj[idAttribute]`). -/
def getIdOfRec (idAttr : String) (r : Rec) : Nat :=
  match r.lookup idAttr with
  | some (Val.vnum n) => n
  | _ => 0

/-- A wrapped entity (`Model` instance): holds its backing record (`_fields`). -/
structure Inst where
  ref : Rec
deriving DecidableEq

/-- Embeds `Model.withId(id)`: the wrapped entity over the stored record. -/
def Table.withId (t : Table) (i : Nat) : Inst :=
  ⟨t.accessId i⟩

/-- Embeds `model.getId()`: reads the id attribute from the instance fields. -/
def Inst.getId (idAttr : String) (m : Inst) : Nat :=
  getIdOfRec idAttr m.ref

/-- What a QuerySet materializes an element as: a raw record reference or a
wrapped entity, depending on the view mode. -/
inductive EntityView where
  | ref (r : Rec)
  | model (m : Inst)
deriving DecidableEq

/-- The record underlying either view of an entity. -/
def EntityView.toRec : EntityView → Rec
  | .ref r => r
  | .model m => m.ref

/-- A QuerySet: the ordered id array, the stored construction options (the
`withRefs` entry of `_opts`, when present), and the `_withRefs` view-mode
flag. -/
structure QuerySet where
  idArr : List Nat
  opts : Option Bool
  _withRefs : Bool
deriving DecidableEq

/-- The QuerySet constructor: `_withRefs` is taken from the options when the
`withRefs` key is present, and defaults to `false`. -/
def QuerySet.new (ids : List Nat) (opts : Option Bool) : QuerySet :=
  ⟨ids, opts, opts.getD false⟩

/-- Embeds `_new(ids, userOpts)`: merges the stored options with `userOpts`
(`Object.assign` semantics: the user options win) and builds a fresh
QuerySet through the constructor. -/
def QuerySet._new (qs : QuerySet) (ids : List Nat) (userOpts : Option Bool) : QuerySet :=
  QuerySet.new ids (match userOpts with | some b => some b | none => qs.opts)

/-- The `withRefs` getter: a QuerySet over the same ids with the flag on;
returns the receiver itself when the flag is already on. -/
def QuerySet.withRefs (qs : QuerySet) : QuerySet :=
  if !qs._withRefs then qs._new qs.idArr (some true) else qs

/-- The `ref` getter: alias for `withRefs`. -/
def QuerySet.refQS (qs : QuerySet) : QuerySet :=
  qs.withRefs

/-- The `withModels` getter: a QuerySet over the same ids with the flag off;
returns the receiver itself when the flag is already off. -/
def QuerySet.withModels (qs : QuerySet) : QuerySet :=
  if qs._withRefs then qs._new qs.idArr (some false) else qs

/-- Embeds `toRefArray()`: the raw records for the ids, in order. -/
def QuerySet.toRefArray (t : Table) (qs : QuerySet) : List Rec :=
  qs.idArr.map t.accessId

/-- Embeds `at(index)`: positional access under the current view mode. -/
def QuerySet.atIndex (t : Table) (qs : QuerySet) (index : Nat) : EntityView :=
  if qs._withRefs then .ref (t.accessId (qs.idArr.getD index 0))
  else .model (t.withId (qs.idArr.getD index 0))

/-- Embeds `toModelArray()`: maps every index through `at`. -/
def QuerySet.toModelArray (t : Table) (qs : QuerySet) : List EntityView :=
  (List.range qs.idArr.length).map (qs.atIndex t)

/-- Embeds `count()`: the length of the id array. -/
def QuerySet.count (qs : QuerySet) : Nat :=
  qs.idArr.length

/-- The shapes a `filter` / `exclude` argument can take: a predicate function,
a field-match mapping, or any other value (here a plain string), which the
underlying list filtering treats as a property shorthand. -/
inductive Lookup where
  | fn (f : EntityView → Bool)
  | obj (m : List (String × Val))
  | str (s : String)

/-- Modelled from the spec: `normalizeEntity` from the `utils` module (not
under `src/`): "a normalization step converting any relation-valued field
references to their canonical id form before comparison". -/
def normalizeEntity : Val → Val
  | .ventity i => .vnum i
  | v => v

/-- JavaScript truthiness of a (possibly missing) field value, as used by the
lodash property-shorthand iteratee. -/
def truthy : Option Val → Bool
  | none => false
  | some (.vnum n) => decide (n ≠ 0)
  | some (.vstr s) => decide (s ≠ "")
  | some (.vbool b) => b
  | some (.ventity _) => true

/-- The iteratee the lodash `filter` / `reject` call receives in
`_filterOrExclude`: the function itself, the field-match object after
`mapValues(lookupObj, normalizeEntity)`, or the property shorthand for any
other predicate shape. -/
def lookupPred (lookupObj : Lookup) : EntityView → Bool :=
  match lookupObj with
  | .fn f => f
  | .obj m =>
      let mNorm := m.map (fun kv => (kv.1, normalizeEntity kv.2))
      fun e => mNorm.all (fun kv => decide (e.toRec.lookup kv.1 = some kv.2))
  | .str s => fun e => truthy (e.toRec.lookup s)

/-- Embeds `_filterOrExclude(lookupObj, exclude)`: chooses the entity list (wrapped
entities only for a function predicate on a QuerySet whose flag is off, raw
records otherwise), runs lodash `filter` or `reject`, maps the survivors back
to ids, and returns a new QuerySet built with `withRefs: false`. -/
def QuerySet._filterOrExclude (t : Table) (qs : QuerySet) (lookupObj : Lookup)
    (exclude : Bool) : QuerySet :=
  let entOp : List EntityView × Bool :=
    match lookupObj with
    | .fn _ =>
        if qs._withRefs then ((qs.toRefArray t).map EntityView.ref, true)
        else (qs.toModelArray t, false)
    | _ => ((qs.toRefArray t).map EntityView.ref, true)
  let pred := lookupPred lookupObj
  let filteredEntities :=
    if exclude then entOp.1.filter (fun e => !(pred e)) else entOp.1.filter pred
  let getIdFunc : EntityView → Nat :=
    if entOp.2 then fun e => getIdOfRec t.idAttribute e.toRec
    else fun e => Inst.getId t.idAttribute ⟨e.toRec⟩
  qs._new (filteredEntities.map getIdFunc) (some false)

/-- Embeds `filter(lookupObj)`. -/
def QuerySet.filter (t : Table) (qs : QuerySet) (lookupObj : Lookup) : QuerySet :=
  qs._filterOrExclude t lookupObj false

/-- Embeds `exclude(lookupObj)`. -/
def QuerySet.exclude (t : Table) (qs : QuerySet) (lookupObj : Lookup) : QuerySet :=
  qs._filterOrExclude t lookupObj true

/-- An `orderBy` iteratee: a field name, or a function deriving the sort key
from an entity (in the view mode the receiver is in). -/
inductive Iter where
  | field (k : String)
  | fn (f : EntityView → Val)

/-- Three-way comparison of naturals. -/
def natCmp (a b : Nat) : Ordering :=
  if a < b then .lt else if b < a then .gt else .eq

/-- Three-way comparison of strings. -/
def strCmp (a b : String) : Ordering :=
  if a < b then .lt else if b < a then .gt else .eq

/-- Type rank used to compare values of different shapes consistently. -/
def Val.rank : Val → Nat
  | .vnum _ => 0
  | .vstr _ => 1
  | .vbool _ => 2
  | .ventity _ => 3

/-- Same-shape payload comparison. -/
def Val.payloadCmp : Val → Val → Ordering
  | .vnum a, .vnum b => natCmp a b
  | .vstr a, .vstr b => strCmp a b
  | .vbool a, .vbool b => natCmp (cond a 1 0) (cond b 1 0)
  | .ventity a, .ventity b => natCmp a b
  | _, _ => .eq

/-- Total three-way comparison of field values, modelling the lodash
ascending comparison on same-type keys (rank first, then payload). -/
def Val.cmp (a b : Val) : Ordering :=
  match natCmp a.rank b.rank with
  | .eq => a.payloadCmp b
  | o => o

/-- Comparison of possibly-missing sort keys; a missing key sorts last in
ascending order. -/
def ovalCmp : Option Val → Option Val → Ordering
  | none, none => .eq
  | none, some _ => .gt
  | some _, none => .lt
  | some a, some b => a.cmp b

/-- Lexicographic comparison of two key lists under per-position sort orders
(`true` is ascending, `false` descending); unspecified positions default to
ascending. -/
def lexCmp : List (Option Val) → List (Option Val) → List Bool → Ordering
  | a :: as, b :: bs, ords =>
      match if ords.headD true then ovalCmp a b else (ovalCmp a b).swap with
      | .eq => lexCmp as bs (ords.drop 1)
      | o => o
  | _, _, _ => .eq

/-- The sort key one iteratee produces for one raw record: a field lookup, or
the user function applied under the receiver's view mode (for the wrapped
mode the function is wrapped to receive the instance looked up by id). -/
def iterKey (t : Table) (wRefs : Bool) (it : Iter) (r : Rec) : Option Val :=
  match it with
  | .field k => r.lookup k
  | .fn f =>
      some (if wRefs then f (.ref r)
            else f (.model (t.withId (getIdOfRec t.idAttribute r))))

/-- The record ordering induced by the iteratee list and sort orders:
record 1 comes no later than record 2. -/
def recLe (t : Table) (wRefs : Bool) (its : List Iter) (ords : List Bool)
    (r1 r2 : Rec) : Bool :=
  decide (lexCmp (its.map (fun it => iterKey t wRefs it r1))
                 (its.map (fun it => iterKey t wRefs it r2)) ords ≠ .gt)

/-- Insert into a sorted list, before the first element that does not have to
precede the inserted one (keeps ties in arrival order). -/
def insertSorted (le : α → α → Bool) (x : α) : List α → List α
  | [] => [x]
  | y :: ys => if le x y then x :: y :: ys else y :: insertSorted le x ys

/-- Stable insertion sort, modelling the stable sort lodash `orderBy`
performs. -/
def sortStable (le : α → α → Bool) : List α → List α
  | [] => []
  | x :: xs => insertSorted le x (sortStable le xs)

/-- Embeds `orderBy(iteratees, orders)`: stable-sorts the raw records by the
iteratee keys and returns a new QuerySet over the reordered ids, built with
`withRefs: false`. -/
def QuerySet.orderBy (t : Table) (qs : QuerySet) (iteratees : List Iter)
    (orders : List Bool) : QuerySet :=
  let entities := qs.toRefArray t
  let sortedEntities := sortStable (recLe t qs._withRefs iteratees orders) entities
  qs._new (sortedEntities.map (getIdOfRec t.idAttribute)) (some false)

/-- An update record: kind tag, payload and target table name, as produced by
`QuerySet.update` / `QuerySet.delete`. -/
inductive UpdateRec where
  | upd (name : String) (idArr : List Nat) (mergeObj : Rec)
  | del (name : String) (idArr : List Nat)
deriving DecidableEq

/-- The target table name of an update record (`update.meta.name`). -/
def UpdateRec.name : UpdateRec → String
  | .upd n _ _ => n
  | .del n _ => n

/-- Shallow merge of a payload into a record (`Object.assign` semantics: the
payload wins per field, new fields are appended). -/
def mergeRec (r m : Rec) : Rec :=
  r.map (fun kv => match m.lookup kv.1 with | some v => (kv.1, v) | none => kv)
    ++ m.filter (fun kv => (r.lookup kv.1).isNone)

/-- Modelled from the spec: the copy-on-write apply engine (`ops` and the
model backend, not under `src/`): "field-merge updates shallow-merge the
payload into the existing record for each targeted id...; removal updates
delete the id from both the id sequence and the id-to-record mapping". -/
def applyOne (t : Table) (u : UpdateRec) : Table :=
  match u with
  | .upd _ idArr mergeObj =>
      { t with recs := t.recs.map (fun p =>
          if idArr.contains p.1 then (p.1, mergeRec p.2 mergeObj) else p) }
  | .del _ idArr =>
      { t with ids := t.ids.filter (fun i => !(idArr.contains i)),
               recs := t.recs.filter (fun p => !(idArr.contains p.1)) }

/-- Applying a list of update records in recorded order. -/
def applyUpdates (t : Table) (us : List UpdateRec) : Table :=
  us.foldl applyOne t

/-- The side-effect view of `forEach`: the entity list the callback walks,
under the current view mode. -/
def QuerySet.forEachViews (t : Table) (qs : QuerySet) : List EntityView :=
  if qs._withRefs then (qs.toRefArray t).map EntityView.ref else qs.toModelArray t

/-- Embeds `delete()`: appends the removal record for the QuerySet's ids to the log,
then invokes the per-entity `_onDelete` hook on each wrapped entity
(`this.withModels.forEach(model => model._onDelete())`); the hook body is not
part of the snapshot, so it is a parameter producing the update records it
enqueues. -/
def QuerySet.delete (t : Table) (modelName : String) (qs : QuerySet)
    (onDelete : Inst → List UpdateRec) (log : List UpdateRec) : List UpdateRec :=
  let log1 := log ++ [UpdateRec.del modelName qs.idArr]
  (QuerySet.forEachViews t qs.withModels).foldl
    (fun acc e => acc ++ onDelete ⟨e.toRec⟩) log1

/-- Modelled from the spec: the ordered update log (`Transaction`, not under
`src/`): an append-only list of update records, each carrying an "applied"
mark used to find the records a reducer never consumed. -/
abbrev Transaction := List (UpdateRec × Bool)

/-- Modelled from the spec: the still-unapplied records targeting one table,
in recorded order (the per-table slice of `getUnappliedUpdatesByModel`). -/
def pendingFor (n : String) (tx : Transaction) : List UpdateRec :=
  (tx.filter (fun e => e.1.name == n && !e.2)).map (fun e => e.1)

/-- Modelled from the spec: marking every record targeting one table as
applied ("consumed exactly once by the apply engine for its target table"). -/
def markApplied (n : String) (tx : Transaction) : Transaction :=
  tx.map (fun e => if e.1.name == n then (e.1, true) else e)

/-- Whether a table still owns unapplied records (whether it appears in
`getUnappliedUpdatesByModel`). -/
def hasUnapplied (n : String) (tx : Transaction) : Bool :=
  !(pendingFor n tx).isEmpty

/-- Modelled from the spec: the session-bound model class `getNextState(tx)`
(not under `src/`): "invokes the apply engine for that table (used as the
automatic-application fallback)" over the table's still-unapplied records in
recorded order, marking them applied. -/
def modelGetNextState (n : String) (t : Table) (tx : Transaction) :
    Table × Transaction :=
  (applyUpdates t (pendingFor n tx), markApplied n tx)

/-- The state tree: table name to table value. -/
abbrev StateTree := List (String × Table)

/-- Embeds `session.getState(modelName)` on a state tree. -/
def getTable (st : StateTree) (n : String) : Table :=
  (st.lookup n).getD ⟨"id", [], []⟩

/-- Embeds `ops.set(modelName, value, stateTree)`: the tree with one binding
replaced (or appended when absent). -/
def setTable : StateTree → String → Table → StateTree
  | [], n, t => [(n, t)]
  | (k, v) :: rest, n, t =>
      if k == n then (n, t) :: rest else (k, v) :: setTable rest n t

/-- A registered model class: its name and its user-defined reducer, which
receives the model's current session state and returns the next table state
or no value to request automatic log-based application (the action argument
is folded into the function). -/
structure Model where
  name : String
  reducer : Table → Option Table

/-- A session: the bound model classes in registration order, the state tree,
whether an action object was supplied, the in-place-mutation flag, and the
current transaction. -/
structure Session where
  models : List Model
  state : StateTree
  hasAction : Bool
  withMutations : Bool
  tx : Transaction

/-- Embeds `Session.addUpdate(update)`: a mutating session applies the record
immediately to the live model state through the model `updateReducer`
(modelled from the spec as one apply-engine step, bypassing the log); a
non-mutating session appends the record to the transaction. -/
def Session.addUpdate (s : Session) (u : UpdateRec) : Session :=
  if s.withMutations then
    { s with state := setTable s.state u.name (applyOne (getTable s.state u.name) u) }
  else
    { s with tx := s.tx ++ [(u, false)] }

/-- The reducer pass of `getNextState`: for each model in registration order,
run its reducer over the model's current session state; a defined return
value is installed directly, an undefined one falls back to
`modelClass.getNextState(tx)`. -/
def pass1 (prev : StateTree) : List Model → StateTree → Transaction →
    StateTree × Transaction
  | [], st, tx => (st, tx)
  | m :: ms, st, tx =>
      match m.reducer (getTable prev m.name) with
      | some v => pass1 prev ms (setTable st m.name v) tx
      | none =>
          let r := modelGetNextState m.name (getTable prev m.name) tx
          pass1 prev ms (setTable st m.name r.1) r.2

/-- The cleanup pass of `getNextState`: every model that still owns
unapplied records in the snapshot taken after the reducer pass gets
`modelClass.getNextState(tx)` run over its current session state. -/
def pass2 (prev : StateTree) (snap : Transaction) : List Model → StateTree →
    Transaction → StateTree × Transaction
  | [], st, tx => (st, tx)
  | m :: ms, st, tx =>
      if hasUnapplied m.name snap then
        let r := modelGetNextState m.name (getTable prev m.name) tx
        pass2 prev snap ms (setTable st m.name r.1) r.2
      else pass2 prev snap ms st tx

/-- Embeds `Session.getNextState(userOpts)`: a mutating session returns its state
unchanged; otherwise run the reducer pass (when requested explicitly, or by
default exactly when an action was supplied), then the cleanup pass over the
tables with unapplied records, close and discard the transaction, install a
fresh empty one, and return the assembled next state tree.  The ambient
`ops.open` / `ops.close` bracketing carries no state the result depends on
and is not represented. -/
def Session.getNextState (s : Session) (runReducersOpt : Option Bool) :
    StateTree × Session :=
  if s.withMutations then (s.state, s)
  else
    let runReducers := runReducersOpt.getD s.hasAction
    let r1 := if runReducers then pass1 s.state s.models s.state s.tx
              else (s.state, s.tx)
    let r2 := pass2 s.state r1.2 s.models r1.1 r1.2
    (r2.1, { s with tx := [] })

/-- Embeds `Session.reduce()`. -/
def Session.reduce (s : Session) : StateTree × Session :=
  s.getNextState (some true)

/-- The per-id predicate a `filter` / `exclude` call evaluates, stated
directly over ids: the characterization the filtering theorems prove the
pipeline equal to. -/
def idPred (t : Table) (wRefs : Bool) (lk : Lookup) (i : Nat) : Bool :=
  match lk with
  | .fn f => if wRefs then f (.ref (t.accessId i)) else f (.model (t.withId i))
  | .obj m =>
      (m.map (fun kv => (kv.1, normalizeEntity kv.2))).all
        (fun kv => decide ((t.accessId i).lookup kv.1 = some kv.2))
  | .str s => truthy ((t.accessId i).lookup s)

/-- Sample records used in concrete instantiations. -/
def sampleRec1 : Rec := [("id", .vnum 1), ("x", .vnum 7)]

/-- Second sample record, without the `x` field. -/
def sampleRec2 : Rec := [("id", .vnum 2)]

/-- A two-row sample table. -/
def sampleTable : Table := ⟨"id", [1, 2], [(1, sampleRec1), (2, sampleRec2)]⟩

/-- A QuerySet over the sample table in raw-record mode. -/
def qsRaw : QuerySet := ⟨[1, 2], some true, true⟩

/-- A QuerySet over the sample table in wrapped-entity mode. -/
def qsPlain : QuerySet := ⟨[1, 2], none, false⟩

/-- Book table rows for the ordering scenario: ids 1, 2, 3 with ratings
3, 5, 4. -/
def bookRec1 : Rec := [("id", .vnum 1), ("rating", .vnum 3)]

/-- Book with rating 5. -/
def bookRec2 : Rec := [("id", .vnum 2), ("rating", .vnum 5)]

/-- Book with rating 4. -/
def bookRec3 : Rec := [("id", .vnum 3), ("rating", .vnum 4)]

/-- The Book table of the ordering scenario. -/
def bookTable : Table :=
  ⟨"id", [1, 2, 3], [(1, bookRec1), (2, bookRec2), (3, bookRec3)]⟩

/-- A QuerySet over the whole Book table. -/
def bookQS : QuerySet := ⟨[1, 2, 3], none, false⟩

/-- The table the reducer-override counterexample session starts from. -/
def tblA : Table := ⟨"id", [1], [(1, [("id", .vnum 1)])]⟩

/-- The value the counterexample reducer returns (an emptied table). -/
def tblAred : Table := ⟨"id", [], []⟩

/-- A session whose single model has a reducer returning a defined value
while one recorded update for the same table stays unapplied. -/
def sessA : Session :=
  ⟨[⟨"A", fun _ => some tblAred⟩], [("A", tblA)], true, false,
    [(UpdateRec.upd ("A") [1] [("x", .vnum 7)], false)]⟩

/-- The starting table of the two-removals scenario. -/
def tblB : Table :=
  ⟨"id", [1, 2, 3],
    [(1, [("id", .vnum 1)]), (2, [("id", .vnum 2)]), (3, [("id", .vnum 3)])]⟩

/-- The model of the two-removals scenario: no user reducer (the default
reducer returns no value). -/
def mdlB : Model := ⟨"B", fun _ => none⟩

/-- A session over one reducerless table with two recorded removal records. -/
def sessB : Session :=
  ⟨[mdlB], [("B", tblB)], true, false,
    [(UpdateRec.del ("B") [1], false), (UpdateRec.del ("B") [2], false)]⟩

/-! ## General list lemmas -/

theorem filter_map_comm (f : α → β) (p : β → Bool) (l : List α) :
    (l.map f).filter p = (l.filter (fun x => p (f x))).map f := by
  induction l with
  | nil => rfl
  | cons x xs ih => cases h : p (f x) <;> simp [List.filter_cons, h, ih]

theorem map_congr_id (l : List α) (g : α → α) (h : ∀ x ∈ l, g x = x) :
    l.map g = l := by
  induction l with
  | nil => rfl
  | cons x xs ih =>
      simp only [List.map_cons, h x (by simp)]
      rw [ih (fun y hy => h y (by simp [hy]))]

theorem length_filter_partition (p : α → Bool) (l : List α) :
    (l.filter p).length + (l.filter (fun x => !(p x))).length = l.length := by
  induction l with
  | nil => rfl
  | cons x xs ih => cases h : p x <;> simp [List.filter_cons, h] <;> omega

theorem foldl_append_flatten (h : α → List β) (l : List α) (a0 : List β) :
    l.foldl (fun acc x => acc ++ h x) a0 = a0 ++ (l.map h).flatten := by
  induction l generalizing a0 with
  | nil => simp
  | cons x xs ih => simp [ih, List.append_assoc]

theorem map_range_getD (l : List α) (d : α) (g : α → β) :
    (List.range l.length).map (fun i => g (l.getD i d)) = l.map g := by
  induction l with
  | nil => rfl
  | cons x xs ih =>
      rw [List.length_cons, List.range_succ_eq_map, List.map_cons, List.map_map]
      simp only [List.getD_cons_zero]
      have hc : ((fun i => g ((x :: xs).getD i d)) ∘ Nat.succ) = fun i => g (xs.getD i d) := by
        funext i
        simp
      rw [hc, ih, List.map_cons]

/-! ## QuerySet lemmas -/

theorem toModelArray_models (t : Table) (qs : QuerySet) (h : qs._withRefs = false) :
    qs.toModelArray t = qs.idArr.map (fun i => EntityView.model (t.withId i)) := by
  unfold QuerySet.toModelArray
  have hat : qs.atIndex t = fun idx => EntityView.model (t.withId (qs.idArr.getD idx 0)) := by
    funext idx
    simp [QuerySet.atIndex, h]
  rw [hat]
  exact map_range_getD qs.idArr 0 (fun i => EntityView.model (t.withId i))

theorem withModels_flag (qs : QuerySet) : qs.withModels._withRefs = false := by
  cases h : qs._withRefs <;>
    simp [QuerySet.withModels, QuerySet._new, QuerySet.new, h]

theorem withModels_idArr (qs : QuerySet) : qs.withModels.idArr = qs.idArr := by
  cases h : qs._withRefs <;>
    simp [QuerySet.withModels, QuerySet._new, QuerySet.new, h]

theorem pipeline_eq (t : Table) (idArr : List Nat) (gv : Nat → EntityView)
    (hg : ∀ i ∈ idArr, getIdOfRec t.idAttribute (gv i).toRec = i)
    (pred : EntityView → Bool) (ex : Bool) :
    ((if ex then (idArr.map gv).filter (fun e => !(pred e))
      else (idArr.map gv).filter pred).map
        (fun e => getIdOfRec t.idAttribute e.toRec))
      = idArr.filter (fun i => pred (gv i) != ex) := by
  cases ex with
  | false =>
      simp only [Bool.false_eq_true, if_false]
      rw [filter_map_comm gv pred idArr, List.map_map]
      have h2 : (fun i => pred (gv i) != false) = fun i => pred (gv i) := by
        funext i
        cases pred (gv i) <;> rfl
      rw [h2]
      apply map_congr_id
      intro x hx
      exact hg x (List.mem_of_mem_filter hx)
  | true =>
      simp only [if_true]
      rw [filter_map_comm gv (fun e => !(pred e)) idArr, List.map_map]
      have h2 : (fun i => pred (gv i) != true) = fun i => !(pred (gv i)) := by
        funext i
        cases pred (gv i) <;> rfl
      rw [h2]
      apply map_congr_id
      intro x hx
      exact hg x (List.mem_of_mem_filter hx)

theorem filterOrExclude_idArr (t : Table) (qs : QuerySet) (lk : Lookup) (ex : Bool)
    (hwf : ∀ i ∈ qs.idArr, (t.accessId i).lookup t.idAttribute = some (.vnum i)) :
    (QuerySet._filterOrExclude t qs lk ex).idArr
      = qs.idArr.filter (fun i => idPred t qs._withRefs lk i != ex) := by
  have hgid : ∀ i ∈ qs.idArr, getIdOfRec t.idAttribute (t.accessId i) = i := by
    intro i hi
    simp [getIdOfRec, hwf i hi]
  cases lk with
  | fn f =>
      cases hR : qs._withRefs with
      | true =>
          simp only [QuerySet._filterOrExclude, lookupPred, hR, QuerySet.toRefArray,
            QuerySet._new, QuerySet.new, if_true, List.map_map, idPred,
            Option.getD_some]
          have := pipeline_eq t qs.idArr (fun i => EntityView.ref (t.accessId i))
            (fun i hi => hgid i hi) f ex
          simpa [EntityView.toRec] using this
      | false =>
          simp only [QuerySet._filterOrExclude, lookupPred, hR, QuerySet._new,
            QuerySet.new, Bool.false_eq_true, if_false, idPred, Option.getD_some]
          rw [toModelArray_models t qs hR]
          have := pipeline_eq t qs.idArr (fun i => EntityView.model (t.withId i))
            (fun i hi => by simpa [EntityView.toRec, Table.withId] using hgid i hi) f ex
          simpa [EntityView.toRec, Inst.getId, Table.withId] using this
  | obj m =>
      simp only [QuerySet._filterOrExclude, lookupPred, QuerySet.toRefArray,
        QuerySet._new, QuerySet.new, List.map_map, idPred, Option.getD_some]
      have := pipeline_eq t qs.idArr (fun i => EntityView.ref (t.accessId i))
        (fun i hi => hgid i hi)
        (fun e => (m.map (fun kv => (kv.1, normalizeEntity kv.2))).all
          (fun kv => decide (e.toRec.lookup kv.1 = some kv.2))) ex
      simpa [EntityView.toRec] using this
  | str key =>
      simp only [QuerySet._filterOrExclude, lookupPred, QuerySet.toRefArray,
        QuerySet._new, QuerySet.new, List.map_map, idPred, Option.getD_some]
      have := pipeline_eq t qs.idArr (fun i => EntityView.ref (t.accessId i))
        (fun i hi => hgid i hi)
        (fun e => truthy (e.toRec.lookup key)) ex
      simpa [EntityView.toRec] using this

/-! ## Ordering lemmas for the sort machinery -/

theorem natCmp_swap (a b : Nat) : natCmp a b = (natCmp b a).swap := by
  unfold natCmp
  rcases Nat.lt_trichotomy a b with h | h | h
  · simp [h, Nat.lt_asymm h, Ordering.swap]
  · subst h
    simp [Nat.lt_irrefl, Ordering.swap]
  · simp [h, Nat.lt_asymm h, Ordering.swap]

theorem strCmp_swap (a b : String) : strCmp a b = (strCmp b a).swap := by
  unfold strCmp
  rcases lt_trichotomy a b with h | h | h
  · simp [h, lt_asymm h, Ordering.swap]
  · subst h
    simp [lt_irrefl, Ordering.swap]
  · simp [h, lt_asymm h, Ordering.swap]

theorem payloadCmp_swap (a b : Val) : a.payloadCmp b = (b.payloadCmp a).swap := by
  cases a <;> cases b <;>
    simp only [Val.payloadCmp] <;>
    first
      | rfl
      | apply natCmp_swap
      | apply strCmp_swap

theorem valCmp_swap (a b : Val) : a.cmp b = (b.cmp a).swap := by
  unfold Val.cmp
  rw [natCmp_swap a.rank b.rank]
  cases h : natCmp b.rank a.rank <;>
    simp [Ordering.swap, payloadCmp_swap a b]

theorem ovalCmp_swap (a b : Option Val) : ovalCmp a b = (ovalCmp b a).swap := by
  cases a <;> cases b <;> first | rfl | exact valCmp_swap _ _

theorem lexCmp_swap (as bs : List (Option Val)) (ords : List Bool) :
    lexCmp as bs ords = (lexCmp bs as ords).swap := by
  induction as generalizing bs ords with
  | nil => cases bs <;> rfl
  | cons a as ih =>
      cases bs with
      | nil => rfl
      | cons b bs =>
          simp only [lexCmp]
          rw [ovalCmp_swap a b]
          cases hd : ords.headD true <;>
            simp only [hd, if_true, Bool.false_eq_true, if_false] <;>
              cases h : ovalCmp b a <;>
                simp only [h, Ordering.swap] <;>
                  first | rfl | exact ih bs (ords.drop 1)

theorem recLe_total (t : Table) (w : Bool) (its : List Iter) (ords : List Bool)
    (r1 r2 : Rec) :
    (recLe t w its ords r1 r2 || recLe t w its ords r2 r1) = true := by
  unfold recLe
  have hs := lexCmp_swap (its.map (fun it => iterKey t w it r1))
    (its.map (fun it => iterKey t w it r2)) ords
  cases h : lexCmp (its.map (fun it => iterKey t w it r1))
      (its.map (fun it => iterKey t w it r2)) ords <;>
    rw [h] at hs <;> simp [h]
  cases h2 : lexCmp (its.map (fun it => iterKey t w it r2))
      (its.map (fun it => iterKey t w it r1)) ords <;>
    rw [h2] at hs <;> simp [Ordering.swap] at hs <;> simp

theorem recLe_field_flag (t : Table) (w1 w2 : Bool) (k : String) (ords : List Bool) :
    recLe t w1 [Iter.field k] ords = recLe t w2 [Iter.field k] ords := by
  funext r1 r2
  simp [recLe, iterKey]

theorem recLe_const_true (t : Table) (w : Bool) (ords : List Bool) (r1 r2 : Rec) :
    recLe t w [Iter.fn (fun _ => Val.vnum 0)] ords r1 r2 = true := by
  simp [recLe, iterKey, lexCmp, ovalCmp, Val.cmp, Val.rank, Val.payloadCmp,
    natCmp, Ordering.swap, ite_self]

theorem insertSorted_mem (le : α → α → Bool) (x a : α) (l : List α) :
    a ∈ insertSorted le x l ↔ a = x ∨ a ∈ l := by
  induction l with
  | nil => simp [insertSorted]
  | cons y ys ih =>
      cases h : le x y <;> simp [insertSorted, h, ih] <;> tauto

theorem sortStable_mem (le : α → α → Bool) (a : α) (l : List α) :
    a ∈ sortStable le l ↔ a ∈ l := by
  induction l with
  | nil => simp [sortStable]
  | cons x xs ih => simp [sortStable, insertSorted_mem, ih]

theorem chain'_insertSorted (le : α → α → Bool)
    (htot : ∀ a b, (le a b || le b a) = true) (x : α) :
    ∀ l, List.Chain' (fun a b => le a b = true) l →
      List.Chain' (fun a b => le a b = true) (insertSorted le x l) := by
  intro l
  induction l with
  | nil =>
      intro _
      simp [insertSorted]
  | cons y ys ih =>
      intro hl
      cases h : le x y with
      | true =>
          simp only [insertSorted, h, if_true]
          exact List.chain'_cons.mpr ⟨h, hl⟩
      | false =>
          simp only [insertSorted, h, Bool.false_eq_true, if_false]
          have hins := ih hl.tail
          rw [List.chain'_cons']
          refine ⟨?_, hins⟩
          intro z hz
          have hyx : le y x = true := by
            have := htot x y
            rw [h] at this
            simpa using this
          cases ys with
          | nil =>
              simp [insertSorted] at hz
              rw [← hz]
              exact hyx
          | cons w ws =>
              cases hw : le x w with
              | true =>
                  simp [insertSorted, hw] at hz
                  rw [← hz]
                  exact hyx
              | false =>
                  simp [insertSorted, hw] at hz
                  rw [← hz]
                  exact (List.chain'_cons.mp hl).1

theorem chain'_sortStable (le : α → α → Bool)
    (htot : ∀ a b, (le a b || le b a) = true) (l : List α) :
    List.Chain' (fun a b => le a b = true) (sortStable le l) := by
  induction l with
  | nil => simp [sortStable]
  | cons x xs ih => exact chain'_insertSorted le htot x _ ih

theorem sortStable_of_chain' (le : α → α → Bool) :
    ∀ l, List.Chain' (fun a b => le a b = true) l → sortStable le l = l := by
  intro l
  induction l with
  | nil =>
      intro _
      rfl
  | cons x xs ih =>
      intro hl
      cases xs with
      | nil => rfl
      | cons y ys =>
          have h1 : le x y = true := (List.chain'_cons.mp hl).1
          have h2 := ih (List.chain'_cons.mp hl).2
          simp only [sortStable] at h2 ⊢
          rw [h2]
          simp [insertSorted, h1]

theorem chain'_of_forall (R : α → α → Prop) (h : ∀ a b, R a b) (l : List α) :
    List.Chain' R l := by
  induction l with
  | nil => trivial
  | cons x xs ih =>
      rw [List.chain'_cons']
      exact ⟨fun z _ => h x z, ih⟩

theorem orderBy_idArr (t : Table) (qs : QuerySet) (its : List Iter) (ords : List Bool) :
    (QuerySet.orderBy t qs its ords).idArr
      = (sortStable (recLe t qs._withRefs its ords) (qs.idArr.map t.accessId)).map
          (getIdOfRec t.idAttribute) := by
  simp [QuerySet.orderBy, QuerySet.toRefArray, QuerySet._new, QuerySet.new]

theorem orderBy_withRefs (t : Table) (qs : QuerySet) (its : List Iter) (ords : List Bool) :
    (QuerySet.orderBy t qs its ords)._withRefs = false := by
  simp [QuerySet.orderBy, QuerySet._new, QuerySet.new]

theorem orderBy_field_idem (t : Table) (qs : QuerySet) (k : String) (ords : List Bool)
    (hwf : ∀ i ∈ qs.idArr, (t.accessId i).lookup t.idAttribute = some (.vnum i)) :
    (QuerySet.orderBy t (QuerySet.orderBy t qs [Iter.field k] ords)
        [Iter.field k] ords).idArr
      = (QuerySet.orderBy t qs [Iter.field k] ords).idArr := by
  have hgid : ∀ i ∈ qs.idArr, getIdOfRec t.idAttribute (t.accessId i) = i := by
    intro i hi
    simp [getIdOfRec, hwf i hi]
  have h1 : (QuerySet.orderBy t qs [Iter.field k] ords).idArr
      = (sortStable (recLe t false [Iter.field k] ords) (qs.idArr.map t.accessId)).map
          (getIdOfRec t.idAttribute) := by
    rw [orderBy_idArr, recLe_field_flag t qs._withRefs false k ords]
  have h2 : (QuerySet.orderBy t (QuerySet.orderBy t qs [Iter.field k] ords)
        [Iter.field k] ords).idArr
      = (sortStable (recLe t false [Iter.field k] ords)
          (((sortStable (recLe t false [Iter.field k] ords)
              (qs.idArr.map t.accessId)).map (getIdOfRec t.idAttribute)).map
            t.accessId)).map (getIdOfRec t.idAttribute) := by
    rw [orderBy_idArr, orderBy_withRefs, h1]
  have hSE : ∀ r ∈ sortStable (recLe t false [Iter.field k] ords)
      (qs.idArr.map t.accessId), t.accessId (getIdOfRec t.idAttribute r) = r := by
    intro r hr
    rw [sortStable_mem] at hr
    obtain ⟨i, hi, rfl⟩ := List.mem_map.mp hr
    rw [hgid i hi]
  have hE2 : ((sortStable (recLe t false [Iter.field k] ords)
        (qs.idArr.map t.accessId)).map (getIdOfRec t.idAttribute)).map t.accessId
      = sortStable (recLe t false [Iter.field k] ords) (qs.idArr.map t.accessId) := by
    rw [List.map_map]
    exact map_congr_id _ _ hSE
  have hid : sortStable (recLe t false [Iter.field k] ords)
      (sortStable (recLe t false [Iter.field k] ords) (qs.idArr.map t.accessId))
      = sortStable (recLe t false [Iter.field k] ords) (qs.idArr.map t.accessId) :=
    sortStable_of_chain' _ _
      (chain'_sortStable _ (recLe_total t false [Iter.field k] ords) _)
  rw [h2, hE2, hid, h1]

theorem orderBy_const_stable (t : Table) (qs : QuerySet) (ords : List Bool)
    (hwf : ∀ i ∈ qs.idArr, (t.accessId i).lookup t.idAttribute = some (.vnum i)) :
    (QuerySet.orderBy t qs [Iter.fn (fun _ => Val.vnum 0)] ords).idArr = qs.idArr := by
  have hgid : ∀ i ∈ qs.idArr, getIdOfRec t.idAttribute (t.accessId i) = i := by
    intro i hi
    simp [getIdOfRec, hwf i hi]
  rw [orderBy_idArr]
  have hall : sortStable (recLe t qs._withRefs [Iter.fn (fun _ => Val.vnum 0)] ords)
      (qs.idArr.map t.accessId) = qs.idArr.map t.accessId :=
    sortStable_of_chain' _ _
      (chain'_of_forall _ (fun a b => recLe_const_true t qs._withRefs ords a b) _)
  rw [hall, List.map_map]
  exact map_congr_id _ _ hgid

/-! ## Claim theorems -/

/-- Claim C2 (counterexample to the claim as stated): a filter on a QuerySet
whose view mode is raw-record returns a QuerySet whose `_withRefs` flag is
not on, refuting "the view-mode flag is the raw-record setting, i.e. withRefs
on, regardless of the receiver's view mode". -/
theorem claim_C2_counterexample :
    ¬ ((QuerySet.filter sampleTable qsRaw (.obj []))._withRefs = true) := by
  decide

/-- Claim C2 (amended): for every QuerySet, the QuerySet returned by
`filter`, `exclude` (through `_filterOrExclude`) and `orderBy` is in
wrapped-entity view mode — its `_withRefs` flag is off — regardless of the
receiver's view mode. -/
theorem claim_C2_amended (t : Table) (qs : QuerySet) (lk : Lookup) (ex : Bool)
    (its : List Iter) (ords : List Bool) :
    (QuerySet._filterOrExclude t qs lk ex)._withRefs = false
  ∧ (QuerySet.orderBy t qs its ords)._withRefs = false := by
  constructor
  · cases lk <;>
      simp [QuerySet._filterOrExclude, QuerySet._new, QuerySet.new]
  · simp [QuerySet.orderBy, QuerySet._new, QuerySet.new]

/-- Claim C3 (confirmed): a function predicate is applied to wrapped entities
when the receiver is in wrapped-entity mode and to raw records in raw-record
mode; a field-match mapping is always evaluated against raw records (after
entity normalization) whatever the view mode; and the surviving ids are a
stable filter of the receiver's id sequence. -/
theorem claim_C3 (t : Table) (qs : QuerySet) (f : EntityView → Bool)
    (m : List (String × Val)) (lk : Lookup) (ex b : Bool)
    (hwf : ∀ i ∈ qs.idArr, (t.accessId i).lookup t.idAttribute = some (.vnum i)) :
    (QuerySet._filterOrExclude t { qs with _withRefs := true } (.fn f) ex).idArr
        = qs.idArr.filter (fun i => f (.ref (t.accessId i)) != ex)
  ∧ (QuerySet._filterOrExclude t { qs with _withRefs := false } (.fn f) ex).idArr
        = qs.idArr.filter (fun i => f (.model (t.withId i)) != ex)
  ∧ (QuerySet._filterOrExclude t { qs with _withRefs := b } (.obj m) ex).idArr
        = qs.idArr.filter (fun i =>
            (m.map (fun kv => (kv.1, normalizeEntity kv.2))).all
              (fun kv => decide ((t.accessId i).lookup kv.1 = some kv.2)) != ex)
  ∧ List.Sublist (QuerySet._filterOrExclude t qs lk ex).idArr qs.idArr := by
  refine ⟨?_, ?_, ?_, ?_⟩
  · have := filterOrExclude_idArr t { qs with _withRefs := true } (.fn f) ex hwf
    simpa [idPred] using this
  · have := filterOrExclude_idArr t { qs with _withRefs := false } (.fn f) ex hwf
    simpa [idPred] using this
  · have := filterOrExclude_idArr t { qs with _withRefs := b } (.obj m) ex hwf
    simpa [idPred] using this
  · rw [filterOrExclude_idArr t qs lk ex hwf]
    exact List.filter_sublist qs.idArr

/-- Witness for C3: concrete instantiation over the sample table, with a
relation-valued field-match entry exercising the normalization step. -/
theorem claim_C3_witness :
    (∀ i ∈ qsPlain.idArr,
        (sampleTable.accessId i).lookup sampleTable.idAttribute = some (.vnum i))
  ∧ ((QuerySet._filterOrExclude sampleTable { qsPlain with _withRefs := true }
        (.fn (fun e => decide (e.toRec.lookup ("x") = some (.vnum 7)))) false).idArr
        = qsPlain.idArr.filter (fun i =>
            decide ((EntityView.ref (sampleTable.accessId i)).toRec.lookup ("x")
              = some (.vnum 7)) != false)
    ∧ (QuerySet._filterOrExclude sampleTable { qsPlain with _withRefs := false }
        (.fn (fun e => decide (e.toRec.lookup ("x") = some (.vnum 7)))) false).idArr
        = qsPlain.idArr.filter (fun i =>
            decide ((EntityView.model (sampleTable.withId i)).toRec.lookup ("x")
              = some (.vnum 7)) != false)
    ∧ (QuerySet._filterOrExclude sampleTable { qsPlain with _withRefs := true }
        (.obj [("id", .ventity 1)]) false).idArr
        = qsPlain.idArr.filter (fun i =>
            ([("id", .ventity 1)].map (fun kv => (kv.1, normalizeEntity kv.2))).all
              (fun kv => decide ((sampleTable.accessId i).lookup kv.1 = some kv.2))
              != false)
    ∧ List.Sublist (QuerySet._filterOrExclude sampleTable qsPlain
        (.obj [("id", .ventity 1)]) false).idArr qsPlain.idArr) :=
  ⟨by decide,
   claim_C3 sampleTable qsPlain
     (fun e => decide (e.toRec.lookup ("x") = some (.vnum 7)))
     [("id", .ventity 1)] (.obj [("id", .ventity 1)]) false true (by decide)⟩

/-- Claim C4 (counterexample to the claim as stated): calling `filter` with a
predicate that is neither a function nor a mapping (here the plain string
"x") does not fail: the source forwards it to the lodash filtering call,
which treats it as a property shorthand over raw records, and a QuerySet is
silently returned (here even with a surviving id). -/
theorem claim_C4_counterexample :
    (QuerySet.filter sampleTable qsPlain (.str ("x"))).idArr = [1] := by
  decide

/-- Claim C4 (amended): a predicate that is neither a function nor a mapping
is not rejected; `filter` / `exclude` return normally the QuerySet of the ids
whose raw record has a truthy value at that property (lodash property
shorthand), for every receiver. -/
theorem claim_C4_amended (t : Table) (qs : QuerySet) (key : String) (ex : Bool)
    (hwf : ∀ i ∈ qs.idArr, (t.accessId i).lookup t.idAttribute = some (.vnum i)) :
    (QuerySet._filterOrExclude t qs (.str key) ex).idArr
      = qs.idArr.filter (fun i => truthy ((t.accessId i).lookup key) != ex) := by
  have := filterOrExclude_idArr t qs (.str key) ex hwf
  simpa [idPred] using this

/-- Witness for the amended C4 at a concrete table and string predicate. -/
theorem claim_C4_amended_witness :
    (∀ i ∈ qsPlain.idArr,
        (sampleTable.accessId i).lookup sampleTable.idAttribute = some (.vnum i))
  ∧ (QuerySet._filterOrExclude sampleTable qsPlain (.str ("x")) false).idArr
      = qsPlain.idArr.filter
          (fun i => truthy ((sampleTable.accessId i).lookup ("x")) != false) :=
  ⟨by decide, claim_C4_amended sampleTable qsPlain ("x") false (by decide)⟩

/-- Claim C5 (confirmed): `delete()` first appends the removal record for the
QuerySet's ids to the update log and only then runs the per-entity
`_onDelete` hook on each wrapped entity, so every record the hooks enqueue
sits strictly after the removal record in the final log — for every hook
body. -/
theorem claim_C5 (t : Table) (n : String) (qs : QuerySet)
    (onDelete : Inst → List UpdateRec) (log : List UpdateRec) :
    QuerySet.delete t n qs onDelete log
      = log ++ UpdateRec.del n qs.idArr
          :: (qs.idArr.map (fun i => onDelete (t.withId i))).flatten := by
  unfold QuerySet.delete QuerySet.forEachViews
  rw [withModels_flag qs]
  simp only [Bool.false_eq_true, if_false]
  rw [toModelArray_models t qs.withModels (withModels_flag qs), withModels_idArr qs]
  rw [foldl_append_flatten]
  simp only [List.map_map, List.append_assoc, List.singleton_append]
  rfl

/-- Claim C6 (confirmed): for a field-match predicate, `filter` and `exclude`
partition the id sequence, so their counts add up to the receiver's count. -/
theorem claim_C6 (t : Table) (qs : QuerySet) (m : List (String × Val)) :
    (QuerySet.filter t qs (.obj m)).count + (QuerySet.exclude t qs (.obj m)).count
      = qs.count := by
  unfold QuerySet.filter QuerySet.exclude QuerySet.count
  simp only [QuerySet._filterOrExclude, QuerySet.toRefArray, QuerySet._new,
    QuerySet.new, if_true, Bool.false_eq_true, if_false, List.length_map]
  have h := length_filter_partition (lookupPred (.obj m))
    ((qs.idArr.map t.accessId).map EntityView.ref)
  simpa using h

/-- Claim C8 (confirmed): view-mode toggling is idempotent and returns the
receiver itself when the flag is already in the requested mode, and the
toggled QuerySet always carries the same id sequence. -/
theorem claim_C8 (qs : QuerySet) :
    qs.withRefs.withRefs = qs.withRefs
  ∧ qs.withModels.withModels = qs.withModels
  ∧ ({ qs with _withRefs := true } : QuerySet).withRefs = { qs with _withRefs := true }
  ∧ ({ qs with _withRefs := false } : QuerySet).withModels = { qs with _withRefs := false }
  ∧ qs.withRefs.idArr = qs.idArr
  ∧ qs.withModels.idArr = qs.idArr
  ∧ qs.withRefs._withRefs = true
  ∧ qs.withModels._withRefs = false
  ∧ qs.refQS = qs.withRefs := by
  cases h : qs._withRefs <;>
    simp [QuerySet.withRefs, QuerySet.withModels, QuerySet.refQS,
      QuerySet._new, QuerySet.new, h]

/-- Claim C9 (confirmed): on a session configured for in-place mutation,
`addUpdate` applies the record immediately to the live model state (one
apply-engine step through the model updateReducer) and leaves the log
untouched; on a session not so configured it appends the record to the log
and leaves the state untouched; and `getNextState` on a mutating session
returns the current state with the session unchanged, running neither the
reducer pass nor the apply pass. -/
theorem claim_C9 (s : Session) (u : UpdateRec) (o : Option Bool) :
    ({ s with withMutations := true } : Session).addUpdate u
      = { s with withMutations := true,
                 state := setTable s.state u.name (applyOne (getTable s.state u.name) u) }
  ∧ ({ s with withMutations := false } : Session).addUpdate u
      = { s with withMutations := false, tx := s.tx ++ [(u, false)] }
  ∧ Session.getNextState { s with withMutations := true } o
      = (s.state, { s with withMutations := true }) := by
  refine ⟨?_, ?_, ?_⟩ <;> simp [Session.addUpdate, Session.getNextState]

/-- Claim C10 (confirmed): on a non-mutating session, `getNextState` never
reassigns the session's own state field — the returned session still holds
the previous state tree and the same bound models — while its transaction
has been replaced by a fresh empty one. -/
theorem claim_C10 (s : Session) (o : Option Bool) :
    (Session.getNextState { s with withMutations := false } o).2.state = s.state
  ∧ (Session.getNextState { s with withMutations := false } o).2.tx = []
  ∧ (Session.getNextState { s with withMutations := false } o).2.models = s.models
  ∧ (Session.getNextState { s with withMutations := false } o).2.withMutations = false := by
  simp [Session.getNextState]

/-- Claim C7 (confirmed): `orderBy` is a stable sort, ascending by default,
and idempotent in resulting id order: ordering twice by the same field gives
the same id order as ordering once; a constant sort key leaves the id order
untouched (stability); and on the Book table with ratings 3, 5, 4 the
ascending order is ids 1, 3, 2 and the descending order is ids 2, 3, 1. -/
theorem claim_C7 (t : Table) (qs : QuerySet) (k : String) (ords : List Bool)
    (hwf : ∀ i ∈ qs.idArr, (t.accessId i).lookup t.idAttribute = some (.vnum i)) :
    (QuerySet.orderBy t (QuerySet.orderBy t qs [Iter.field k] ords)
        [Iter.field k] ords).idArr
      = (QuerySet.orderBy t qs [Iter.field k] ords).idArr
  ∧ (QuerySet.orderBy t qs [Iter.fn (fun _ => Val.vnum 0)] ords).idArr = qs.idArr
  ∧ (QuerySet.orderBy bookTable bookQS [Iter.field ("rating")] []).idArr = [1, 3, 2]
  ∧ (QuerySet.orderBy bookTable bookQS [Iter.field ("rating")] [false]).idArr = [2, 3, 1] :=
  ⟨orderBy_field_idem t qs k ords hwf, orderBy_const_stable t qs ords hwf,
    by decide, by decide⟩

/-- Witness for C7 over the Book table: the ordering scenario of the spec
with the well-formedness hypothesis discharged concretely. -/
theorem claim_C7_witness :
    (∀ i ∈ bookQS.idArr,
        (bookTable.accessId i).lookup bookTable.idAttribute = some (.vnum i))
  ∧ ((QuerySet.orderBy bookTable (QuerySet.orderBy bookTable bookQS
        [Iter.field ("rating")] []) [Iter.field ("rating")] []).idArr
      = (QuerySet.orderBy bookTable bookQS [Iter.field ("rating")] []).idArr
    ∧ (QuerySet.orderBy bookTable bookQS
        [Iter.fn (fun _ => Val.vnum 0)] []).idArr = bookQS.idArr
    ∧ (QuerySet.orderBy bookTable bookQS [Iter.field ("rating")] []).idArr = [1, 3, 2]
    ∧ (QuerySet.orderBy bookTable bookQS [Iter.field ("rating")] [false]).idArr
      = [2, 3, 1]) :=
  ⟨by decide, claim_C7 bookTable bookQS ("rating") [] (by decide)⟩

/-! ## Session pass lemmas -/

theorem getTable_setTable_self : ∀ (st : StateTree) (n : String) (v : Table),
    getTable (setTable st n v) n = v := by
  intro st n v
  induction st with
  | nil => simp [setTable, getTable, List.lookup]
  | cons p rest ih =>
      obtain ⟨k, w⟩ := p
      by_cases hp : k = n
      · have hb : (k == n) = true := beq_iff_eq.mpr hp
        have hb2 : (n == k) = true := beq_iff_eq.mpr hp.symm
        simp [setTable, getTable, List.lookup, hb, hb2]
      · have hb : (k == n) = false := beq_eq_false_iff_ne.mpr hp
        have hb2 : (n == k) = false := beq_eq_false_iff_ne.mpr (fun h => hp h.symm)
        simpa [setTable, getTable, List.lookup, hb, hb2] using ih

theorem getTable_setTable_ne (st : StateTree) (n n' : String) (v : Table)
    (h : n' ≠ n) : getTable (setTable st n v) n' = getTable st n' := by
  have hb0 : (n' == n) = false := beq_eq_false_iff_ne.mpr h
  induction st with
  | nil => simp [setTable, getTable, List.lookup, hb0]
  | cons p rest ih =>
      obtain ⟨k, w⟩ := p
      by_cases hp : k = n
      · have hb : (k == n) = true := beq_iff_eq.mpr hp
        have hb2 : (n' == k) = false :=
          beq_eq_false_iff_ne.mpr (fun hEq => h (hEq.trans hp))
        simp [setTable, getTable, List.lookup, hb, hb2, hb0]
      · have hb : (k == n) = false := beq_eq_false_iff_ne.mpr hp
        by_cases hk : n' = k
        · have hb2 : (n' == k) = true := beq_iff_eq.mpr hk
          simp [setTable, getTable, List.lookup, hb, hb2]
        · have hb2 : (n' == k) = false := beq_eq_false_iff_ne.mpr hk
          simpa [setTable, getTable, List.lookup, hb, hb2] using ih

theorem pendingFor_markApplied_self (n : String) (tx : Transaction) :
    pendingFor n (markApplied n tx) = [] := by
  induction tx with
  | nil => rfl
  | cons e rest ih =>
      obtain ⟨u, ap⟩ := e
      show pendingFor n
        ((if u.name == n then (u, true) else (u, ap)) :: markApplied n rest) = []
      by_cases hu : u.name = n
      · have hb : (u.name == n) = true := beq_iff_eq.mpr hu
        simp only [hb, if_true, pendingFor, List.filter_cons, Bool.not_true,
          Bool.and_false, Bool.false_eq_true, if_false]
        exact ih
      · have hb : (u.name == n) = false := beq_eq_false_iff_ne.mpr hu
        simp only [hb, Bool.false_eq_true, if_false, pendingFor, List.filter_cons,
          Bool.false_and]
        exact ih

theorem pendingFor_markApplied_ne (n n' : String) (tx : Transaction)
    (h : n ≠ n') : pendingFor n (markApplied n' tx) = pendingFor n tx := by
  induction tx with
  | nil => rfl
  | cons e rest ih =>
      obtain ⟨u, ap⟩ := e
      show pendingFor n
          ((if u.name == n' then (u, true) else (u, ap)) :: markApplied n' rest)
        = pendingFor n ((u, ap) :: rest)
      by_cases hu : u.name = n'
      · have hb : (u.name == n') = true := beq_iff_eq.mpr hu
        have hn : (u.name == n) = false := by
          refine beq_eq_false_iff_ne.mpr ?_
          rw [hu]
          exact fun hEq => h hEq.symm
        simp only [hb, if_true, pendingFor, List.filter_cons, hn, Bool.false_and,
          Bool.false_eq_true, if_false]
        exact ih
      · have hb : (u.name == n') = false := beq_eq_false_iff_ne.mpr hu
        simp only [hb, Bool.false_eq_true, if_false, pendingFor, List.filter_cons]
        by_cases hn : u.name = n
        · have hbn : (u.name == n) = true := beq_iff_eq.mpr hn
          cases ap with
          | true =>
              simp only [hbn, Bool.not_true, Bool.and_false, Bool.true_and,
                Bool.false_eq_true, if_false]
              exact ih
          | false =>
              simp only [hbn, Bool.not_false, Bool.and_true, Bool.true_and, if_true,
                List.map_cons]
              exact congrArg (List.cons u) ih
        · have hbn : (u.name == n) = false := beq_eq_false_iff_ne.mpr hn
          simp only [hbn, Bool.false_and, Bool.false_eq_true, if_false]
          exact ih

theorem pass1_frame : ∀ (ms : List Model) (prev st : StateTree) (tx : Transaction)
    (n : String), n ∉ ms.map Model.name →
      getTable (pass1 prev ms st tx).1 n = getTable st n
    ∧ pendingFor n (pass1 prev ms st tx).2 = pendingFor n tx := by
  intro ms
  induction ms with
  | nil =>
      intro prev st tx n _
      exact ⟨rfl, rfl⟩
  | cons m0 ms ih =>
      intro prev st tx n h
      rw [List.map_cons, List.mem_cons] at h
      push_neg at h
      obtain ⟨h1, h2⟩ := h
      cases hr : m0.reducer (getTable prev m0.name) with
      | some v =>
          simp only [pass1, hr]
          have hi := ih prev (setTable st m0.name v) tx n h2
          exact ⟨by rw [hi.1, getTable_setTable_ne st m0.name n v h1], hi.2⟩
      | none =>
          simp only [pass1, hr, modelGetNextState]
          have hi := ih prev
            (setTable st m0.name
              (applyUpdates (getTable prev m0.name) (pendingFor m0.name tx)))
            (markApplied m0.name tx) n h2
          refine ⟨by rw [hi.1, getTable_setTable_ne _ m0.name n _ h1], ?_⟩
          rw [hi.2, pendingFor_markApplied_ne n m0.name tx h1]

theorem pass1_main : ∀ (ms : List Model) (prev st : StateTree) (tx : Transaction)
    (m : Model), m ∈ ms → (ms.map Model.name).Nodup →
      getTable (pass1 prev ms st tx).1 m.name =
        (match m.reducer (getTable prev m.name) with
         | some v => v
         | none => applyUpdates (getTable prev m.name) (pendingFor m.name tx))
    ∧ pendingFor m.name (pass1 prev ms st tx).2 =
        (match m.reducer (getTable prev m.name) with
         | some _ => pendingFor m.name tx
         | none => []) := by
  intro ms
  induction ms with
  | nil =>
      intro prev st tx m hm _
      exact absurd hm (List.not_mem_nil m)
  | cons m0 ms ih =>
      intro prev st tx m hm hnd
      rw [List.map_cons, List.nodup_cons] at hnd
      obtain ⟨hnotin, hnd'⟩ := hnd
      rcases List.mem_cons.mp hm with heq | hmem
      · subst heq
        cases hr : m.reducer (getTable prev m.name) with
        | some v =>
            simp only [pass1, hr]
            have hfr := pass1_frame ms prev (setTable st m.name v) tx m.name hnotin
            exact ⟨by rw [hfr.1, getTable_setTable_self], hfr.2⟩
        | none =>
            simp only [pass1, hr, modelGetNextState]
            have hfr := pass1_frame ms prev
              (setTable st m.name
                (applyUpdates (getTable prev m.name) (pendingFor m.name tx)))
              (markApplied m.name tx) m.name hnotin
            refine ⟨by rw [hfr.1, getTable_setTable_self], ?_⟩
            rw [hfr.2, pendingFor_markApplied_self]
      · have hne : m.name ≠ m0.name := by
          intro hEq
          apply hnotin
          rw [← hEq]
          exact List.mem_map_of_mem Model.name hmem
        cases hr0 : m0.reducer (getTable prev m0.name) with
        | some v =>
            simp only [pass1, hr0]
            exact ih prev (setTable st m0.name v) tx m hmem hnd'
        | none =>
            simp only [pass1, hr0, modelGetNextState]
            have hi := ih prev
              (setTable st m0.name
                (applyUpdates (getTable prev m0.name) (pendingFor m0.name tx)))
              (markApplied m0.name tx) m hmem hnd'
            rw [pendingFor_markApplied_ne m.name m0.name tx hne] at hi
            exact hi

theorem pass2_frame : ∀ (ms : List Model) (prev : StateTree) (snap : Transaction)
    (st : StateTree) (tx : Transaction) (n : String), n ∉ ms.map Model.name →
      getTable (pass2 prev snap ms st tx).1 n = getTable st n := by
  intro ms
  induction ms with
  | nil =>
      intro prev snap st tx n _
      rfl
  | cons m0 ms ih =>
      intro prev snap st tx n h
      rw [List.map_cons, List.mem_cons] at h
      push_neg at h
      obtain ⟨h1, h2⟩ := h
      cases hu : hasUnapplied m0.name snap with
      | true =>
          simp only [pass2, hu, if_true, modelGetNextState]
          rw [ih prev snap _ _ n h2, getTable_setTable_ne st m0.name n _ h1]
      | false =>
          simp only [pass2, hu, Bool.false_eq_true, if_false]
          exact ih prev snap st tx n h2

theorem pass2_main : ∀ (ms : List Model) (prev : StateTree) (snap : Transaction)
    (st : StateTree) (tx : Transaction) (m : Model),
    m ∈ ms → (ms.map Model.name).Nodup →
      getTable (pass2 prev snap ms st tx).1 m.name =
        if hasUnapplied m.name snap
        then applyUpdates (getTable prev m.name) (pendingFor m.name tx)
        else getTable st m.name := by
  intro ms
  induction ms with
  | nil =>
      intro prev snap st tx m hm _
      exact absurd hm (List.not_mem_nil m)
  | cons m0 ms ih =>
      intro prev snap st tx m hm hnd
      rw [List.map_cons, List.nodup_cons] at hnd
      obtain ⟨hnotin, hnd'⟩ := hnd
      rcases List.mem_cons.mp hm with heq | hmem
      · subst heq
        cases hu : hasUnapplied m.name snap with
        | true =>
            simp only [pass2, hu, if_true, modelGetNextState]
            rw [pass2_frame ms prev snap _ _ m.name hnotin, getTable_setTable_self]
        | false =>
            simp only [pass2, hu, Bool.false_eq_true, if_false]
            rw [pass2_frame ms prev snap st tx m.name hnotin]
      · have hne : m.name ≠ m0.name := by
          intro hEq
          apply hnotin
          rw [← hEq]
          exact List.mem_map_of_mem Model.name hmem
        cases hu : hasUnapplied m0.name snap with
        | true =>
            simp only [pass2, hu, if_true, modelGetNextState]
            rw [ih prev snap _ _ m hmem hnd',
              pendingFor_markApplied_ne m.name m0.name tx hne,
              getTable_setTable_ne st m0.name m.name _ hne]
        | false =>
            simp only [pass2, hu, Bool.false_eq_true, if_false]
            exact ih prev snap st tx m hmem hnd'

/-- Claim C1 (counterexample to the claim as stated): a table whose reducer
returns a defined value while a recorded update for the same table stays
unconsumed does not keep the reducer's value: the cleanup pass overwrites it
with the result of applying the pending updates to the previous table state,
so the reducer-returned value does not become the table's next state. -/
theorem claim_C1_counterexample :
    getTable (sessA.getNextState (some true)).1 ("A")
        = applyUpdates tblA [UpdateRec.upd ("A") [1] [("x", .vnum 7)]]
  ∧ ¬ (getTable (sessA.getNextState (some true)).1 ("A") = tblAred) := by
  exact ⟨by decide, by decide⟩

/-- Claim C1 (amended): with reducers running on a non-mutating session, a
table whose reducer returns a defined value gets that value as its next
state provided no recorded update for it is left unapplied; a table whose
reducer returns no value gets its pending recorded updates applied to its
previous state; and a table left with unapplied updates after the reducer
pass (including a reducerless table with, e.g., two removal records) gets
those updates applied to its previous state in the returned tree, overriding
any value its reducer returned. -/
theorem claim_C1_amended (s : Session) (m : Model)
    (h1 : s.withMutations = false) (h2 : m ∈ s.models)
    (h3 : (s.models.map Model.name).Nodup) :
    getTable (s.getNextState (some true)).1 m.name =
      (match m.reducer (getTable s.state m.name) with
       | none => applyUpdates (getTable s.state m.name) (pendingFor m.name s.tx)
       | some v =>
           if pendingFor m.name s.tx = [] then v
           else applyUpdates (getTable s.state m.name) (pendingFor m.name s.tx)) := by
  unfold Session.getNextState
  rw [h1]
  simp only [Bool.false_eq_true, if_false, Option.getD, if_true]
  have hp1 := pass1_main s.models s.state s.state s.tx m h2 h3
  have hp2 := pass2_main s.models s.state (pass1 s.state s.models s.state s.tx).2
    (pass1 s.state s.models s.state s.tx).1 (pass1 s.state s.models s.state s.tx).2
    m h2 h3
  rw [hp2]
  cases hr : m.reducer (getTable s.state m.name) with
  | none =>
      rw [hr] at hp1
      simp only at hp1
      rw [hasUnapplied, hp1.2]
      simpa using hp1.1
  | some v =>
      rw [hr] at hp1
      simp only at hp1
      rw [hasUnapplied, hp1.2]
      by_cases hpend : pendingFor m.name s.tx = []
      · simp only [hpend, List.isEmpty_nil, Bool.not_true, Bool.false_eq_true, if_false]
        simpa [hpend] using hp1.1
      · have hne : (pendingFor m.name s.tx).isEmpty = false := by
          cases hl : pendingFor m.name s.tx with
          | nil => exact absurd hl hpend
          | cons a as => rfl
        simp [hne, hpend]

/-- Witness for the amended C1: the reducerless-table scenario with two
removal records; both removals are reflected in the returned tree. -/
theorem claim_C1_amended_witness :
    sessB.withMutations = false
  ∧ mdlB ∈ sessB.models
  ∧ (sessB.models.map Model.name).Nodup
  ∧ getTable (sessB.getNextState (some true)).1 mdlB.name =
      (match mdlB.reducer (getTable sessB.state mdlB.name) with
       | none => applyUpdates (getTable sessB.state mdlB.name)
           (pendingFor mdlB.name sessB.tx)
       | some v =>
           if pendingFor mdlB.name sessB.tx = [] then v
           else applyUpdates (getTable sessB.state mdlB.name)
             (pendingFor mdlB.name sessB.tx))
  ∧ getTable (sessB.getNextState (some true)).1 ("B")
      = ⟨"id", [3], [(3, [("id", .vnum 3)])]⟩ :=
  ⟨rfl, List.Mem.head _, by decide,
   claim_C1_amended sessB mdlB rfl (List.Mem.head _) (by decide),
   by decide⟩

end ReduxOrm
